import Mathlib

/-!
Shallow embedding of the skill-learning scripts `learn.py` and `improve.py`
of the `agent-mobile` repository, together with proofs about the mining,
scoring, improvement-proposal and improvement-application logic.

Python float arithmetic is modelled by exact rationals.  Because Mathlib's
field operations on `ℚ` do not reduce inside the kernel, the embedding uses
kernel-reducible wrappers (`qadd`, `qmul`, `qdiv`, ...) built from `mkRat`;
the bridge lemmas below identify them with the ordinary operations, so the
symbolic proofs can work with `+`, `*`, `/` while concrete runs evaluate
by `decide`.
-/

/-- Kernel-reducible addition on `ℚ` (models Python `+` on floats). -/
def qadd (a b : ℚ) : ℚ := mkRat (a.num * b.den + b.num * a.den) (a.den * b.den)

/-- Kernel-reducible negation on `ℚ`. -/
def qneg (a : ℚ) : ℚ := mkRat (-a.num) a.den

/-- Kernel-reducible subtraction on `ℚ` (models Python `-`). -/
def qsub (a b : ℚ) : ℚ := qadd a (qneg b)

/-- Kernel-reducible multiplication on `ℚ` (models Python `*`). -/
def qmul (a b : ℚ) : ℚ := mkRat (a.num * b.num) (a.den * b.den)

/-- Kernel-reducible inverse on `ℚ`. -/
def qinv (a : ℚ) : ℚ :=
  if 0 ≤ a.num then mkRat (a.den : Int) a.num.toNat
  else mkRat (-(a.den : Int)) (-a.num).toNat

/-- Kernel-reducible division on `ℚ` (models Python `/` on floats). -/
def qdiv (a b : ℚ) : ℚ := qmul a (qinv b)

theorem qadd_eq (a b : ℚ) : qadd a b = a + b := by
  rw [qadd, Rat.mkRat_eq_div]
  have ha : ((a.den : ℚ)) ≠ 0 := Nat.cast_ne_zero.mpr a.den_nz
  have hb : ((b.den : ℚ)) ≠ 0 := Nat.cast_ne_zero.mpr b.den_nz
  conv_rhs => rw [← Rat.num_div_den a, ← Rat.num_div_den b]
  push_cast
  rw [div_add_div _ _ ha hb]
  ring_nf

theorem qneg_eq (a : ℚ) : qneg a = -a := by
  rw [qneg, Rat.mkRat_eq_div]
  conv_rhs => rw [← Rat.num_div_den a]
  push_cast
  rw [neg_div]

theorem qsub_eq (a b : ℚ) : qsub a b = a - b := by
  rw [qsub, qadd_eq, qneg_eq, sub_eq_add_neg]

theorem qmul_eq (a b : ℚ) : qmul a b = a * b := by
  rw [qmul, Rat.mkRat_eq_div]
  conv_rhs => rw [← Rat.num_div_den a, ← Rat.num_div_den b]
  push_cast
  rw [div_mul_div_comm]

theorem qinv_eq (a : ℚ) : qinv a = a⁻¹ := by
  have hinv : a⁻¹ = ((a.den : ℚ)) / ((a.num : ℚ)) := by
    rw [show a⁻¹ = a.inv from rfl, Rat.inv_def, Rat.divInt_eq_div]
    push_cast
    ring
  rw [qinv]
  by_cases h : 0 ≤ a.num
  · rw [if_pos h, Rat.mkRat_eq_div, hinv]
    have h2 : ((a.num.toNat : ℕ) : ℚ) = ((a.num : ℤ) : ℚ) := by
      exact_mod_cast Int.toNat_of_nonneg h
    rw [h2, Int.cast_natCast]
  · rw [if_neg h, Rat.mkRat_eq_div, hinv]
    have h' : (0 : ℤ) ≤ -a.num := by omega
    have h2 : (((-a.num).toNat : ℕ) : ℚ) = ((-a.num : ℤ) : ℚ) := by
      exact_mod_cast Int.toNat_of_nonneg h'
    rw [h2]
    push_cast
    rw [neg_div_neg_eq]

theorem qdiv_eq (a b : ℚ) : qdiv a b = a / b := by
  rw [qdiv, qmul_eq, qinv_eq, div_eq_mul_inv]

/-- Python `round(x, 2)`: round to the nearest hundredth.  Modelled with
round-half-up on exact rationals (CPython rounds the nearest binary double
half-to-even; the two agree away from exact `.xx5` ties, and no claim in
this development depends on a tie). -/
def pyRound2 (x : ℚ) : ℚ :=
  mkRat ((200 * x.num + (x.den : Int)) / (2 * (x.den : Int))) 100

theorem pyRound2_eq (x : ℚ) :
    pyRound2 x = ((round (x * 100) : ℤ) : ℚ) / 100 := by
  have hden : ((x.den : ℚ)) ≠ 0 := Nat.cast_ne_zero.mpr x.den_nz
  have key : x * 100 + 1 / 2
      = ((200 * x.num + (x.den : Int) : ℤ) : ℚ) / ((2 * x.den : ℕ) : ℚ) := by
    conv_lhs => rw [← Rat.num_div_den x]
    push_cast
    field_simp
    ring
  have hfloor : round (x * 100) = (200 * x.num + (x.den : Int)) / ((2 * x.den : ℕ) : ℤ) := by
    rw [round_eq, key, Rat.floor_intCast_div_natCast]
  rw [pyRound2, Rat.mkRat_eq_div, hfloor]
  norm_num

/-- `pyRound2` stays inside `[0, 1]` on `[0, 1]` inputs. -/
theorem pyRound2_mem_unit {x : ℚ} (h0 : 0 ≤ x) (h1 : x ≤ 1) :
    0 ≤ pyRound2 x ∧ pyRound2 x ≤ 1 := by
  rw [pyRound2_eq]
  have hlo : (0 : ℤ) ≤ round (x * 100) := by
    rw [round_eq]
    rw [Int.le_floor]
    push_cast
    nlinarith
  have hhi : round (x * 100) ≤ 100 := by
    rw [round_eq]
    have : (⌊x * 100 + 1 / 2⌋ : ℤ) < 101 := by
      rw [Int.floor_lt]
      push_cast
      nlinarith
    omega
  constructor
  · positivity
  · rw [div_le_one (by norm_num)]
    exact_mod_cast hhi

/-! ### List utilities shared by the embeddings

`insertionDedup` models the key order of a Python `dict`/`Counter`
(first-encounter order); `sortDescBy` models Python's stable
`sorted(-, key=-, reverse=True)` (and `Counter.most_common`, which is
documented to be equivalent to a stable descending sort); `findSub` models
`str.index` for a fixed pattern. -/

/-- Keys of a Python `dict`/`Counter` in first-encounter order. -/
def insertionDedup {α : Type} [DecidableEq α] (l : List α) : List α :=
  l.foldl (fun acc x => if x ∈ acc then acc else acc ++ [x]) []

theorem mem_insertionDedup_aux {α : Type} [DecidableEq α] (l acc : List α) (x : α) :
    x ∈ l.foldl (fun acc y => if y ∈ acc then acc else acc ++ [y]) acc ↔ x ∈ acc ∨ x ∈ l := by
  induction l generalizing acc with
  | nil => simp
  | cons a l ih =>
    simp only [List.foldl_cons, ih, List.mem_cons]
    by_cases h : a ∈ acc
    · rw [if_pos h]
      constructor
      · rintro (h' | h') <;> tauto
      · rintro (h' | h' | h') <;> try tauto
        subst h'; tauto
    · rw [if_neg h]
      simp only [List.mem_append, List.mem_singleton]
      tauto

theorem mem_insertionDedup {α : Type} [DecidableEq α] (l : List α) (x : α) :
    x ∈ insertionDedup l ↔ x ∈ l := by
  rw [insertionDedup, mem_insertionDedup_aux]
  simp

/-- One step of a stable insertion sort, descending on `key`: the new
element `x` (originally earlier than everything in the already-sorted list)
goes before the first element whose key is not larger. -/
def insertDescBy {α : Type} (key : α → Nat) (x : α) : List α → List α
  | [] => [x]
  | h :: t => if key x < key h then h :: insertDescBy key x t else x :: h :: t

/-- Stable sort, descending on `key`: models Python's
`sorted(l, key=key, reverse=True)`. -/
def sortDescBy {α : Type} (key : α → Nat) (l : List α) : List α :=
  l.foldr (insertDescBy key) []

theorem mem_insertDescBy {α : Type} (key : α → Nat) (x y : α) (l : List α) :
    y ∈ insertDescBy key x l ↔ y = x ∨ y ∈ l := by
  induction l with
  | nil => simp [insertDescBy]
  | cons h t ih =>
    rw [insertDescBy]
    by_cases hk : key x < key h
    · rw [if_pos hk]
      simp only [List.mem_cons, ih]
      tauto
    · rw [if_neg hk]
      simp only [List.mem_cons]

theorem mem_sortDescBy {α : Type} (key : α → Nat) (l : List α) (y : α) :
    y ∈ sortDescBy key l ↔ y ∈ l := by
  induction l with
  | nil => simp [sortDescBy]
  | cons h t ih =>
    rw [sortDescBy, List.foldr_cons, mem_insertDescBy]
    rw [sortDescBy] at ih
    simp [ih]

theorem pairwise_insertDescBy {α : Type} (key : α → Nat) (x : α) (l : List α)
    (hl : l.Pairwise (fun a b => key b ≤ key a)) :
    (insertDescBy key x l).Pairwise (fun a b => key b ≤ key a) := by
  induction l with
  | nil => simp [insertDescBy]
  | cons h t ih =>
    rw [insertDescBy]
    rcases List.pairwise_cons.mp hl with ⟨hh, ht⟩
    by_cases hk : key x < key h
    · rw [if_pos hk]
      refine List.pairwise_cons.mpr ⟨?_, ih ht⟩
      intro b hb
      rcases (mem_insertDescBy key x b t).mp hb with rfl | hb
      · omega
      · exact hh b hb
    · rw [if_neg hk]
      refine List.pairwise_cons.mpr ⟨?_, hl⟩
      intro b hb
      rcases List.mem_cons.mp hb with rfl | hb
      · omega
      · have := hh b hb
        omega

theorem pairwise_sortDescBy {α : Type} (key : α → Nat) (l : List α) :
    (sortDescBy key l).Pairwise (fun a b => key b ≤ key a) := by
  induction l with
  | nil => simp [sortDescBy]
  | cons h t ih => exact pairwise_insertDescBy key h _ ih

/-- Index of the first occurrence of `pat` in `l` (Python `str.index` /
the `in` containment test on strings, over code points). -/
def findSub (pat l : List Char) : Option Nat :=
  (List.range (l.length + 1)).find? (fun i => pat.isPrefixOf (l.drop i))

/-! ### `learn.py`: pattern records and tool-sequence extraction

A record of `patterns/tool-sequences.jsonl` as consumed by `learn.py` and
`improve.py`.  `none` models an absent JSON key; the age-window filtering of
`load_patterns`/`load_tool_patterns` is pure timestamp plumbing, so the
embedding takes the already-filtered record list as input. -/

structure ToolPattern where
  session_id : Option String
  tool : Option String
  domain_hint : Option String
  success : Option Bool
deriving DecidableEq

/-- The tools of a record list, in order, keeping only records whose
`tool` field is present and truthy (Python: `tool = p.get("tool")`,
`if tool:`; the empty string is falsy). -/
def toolsOf (tps : List ToolPattern) : List String :=
  tps.filterMap (fun p => match p.tool with
    | some t => if t = "" then none else some t
    | none => none)

/-- `extract_tool_sequences`: group tool names by session (sessions in
first-encounter order, a Python `defaultdict`), keep sessions with at
least 3 tool uses. -/
def extract_tool_sequences (tps : List ToolPattern) : List (List String) :=
  let withTool := tps.filterMap (fun p => match p.tool with
    | some t => if t = "" then none else some (p.session_id.getD "unknown", t)
    | none => none)
  let ids := insertionDedup (withTool.map (fun q => q.1))
  (ids.map (fun sid => (withTool.filter (fun q => q.1 = sid)).map (fun q => q.2))).filter
    (fun ts => 3 ≤ ts.length)

/-! ### `find_repeated_subsequences` -/

/-- All length-`n` contiguous windows of `seq`, in position order
(the inner loop `for i in range(len(seq) - n + 1)`). -/
def ngramsAt (seq : List String) (n : Nat) : List (List String) :=
  (List.range (seq.length + 1 - n)).map (fun i => (seq.drop i).take n)

/-- All n-grams of one session, for `n` ranging over
`range(min_len, min(max_len + 1, len(seq) + 1))`, with multiplicity. -/
def seqNgrams (minLen maxLen : Nat) (seq : List String) : List (List String) :=
  (List.range' minLen (min maxLen seq.length + 1 - minLen)).flatMap (ngramsAt seq)

/-- All n-grams of all sessions, with multiplicity: the stream of
`ngram_counts[ngram] += 1` increments of `find_repeated_subsequences`. -/
def allNgrams (minLen maxLen : Nat) (seqs : List (List String)) : List (List String) :=
  seqs.flatMap (seqNgrams minLen maxLen)

/-- `"->".join(tpl)` as a character list (the subsumption test compares
joined strings with Python's substring operator `in`). -/
def joinArrow : List String → List Char
  | [] => []
  | [s] => s.toList
  | s :: r :: t => s.toList ++ '-' :: '>' :: joinArrow (r :: t)

/-- The test inside the subsumption loop: `ngram` is shorter than
`existing` and its arrow-join occurs inside the arrow-join of `existing`. -/
def subsumedBy (g e : List String) : Bool :=
  decide (g.length < e.length ∧ joinArrow g <:+: joinArrow e)

/-- One iteration of the subsumption loop: keep `g` unless some
already-kept entry subsumes it. -/
def subsStep (acc : List (List String × Nat)) (g : List String × Nat) :
    List (List String × Nat) :=
  if acc.any (fun e => subsumedBy g.1 e.1) then acc else acc ++ [g]

/-- `find_repeated_subsequences(sequences, min_len, max_len)`: count all
n-grams, keep those occurring at least twice, then drop every n-gram whose
arrow-join occurs inside a longer kept one (processing longest-first, ties
in first-encounter order as Python's stable `sorted`). -/
def find_repeated_subsequences (seqs : List (List String)) (minLen maxLen : Nat) :
    List (List String × Nat) :=
  let grams := allNgrams minLen maxLen seqs
  let repeated := ((insertionDedup grams).map (fun g => (g, grams.count g))).filter
    (fun p => 2 ≤ p.2)
  (sortDescBy (fun p => p.1.length) repeated).foldl subsStep []

/-- Number of occurrences (by starting position) of `g` as a contiguous
window of `seq`. -/
def occCount (g seq : List String) : Nat := (ngramsAt seq g.length).count g

/-- Total number of occurrences of `g` over all sessions, each starting
position counted separately. -/
def totalOccurrences (g : List String) (seqs : List (List String)) : Nat :=
  (seqs.map (occCount g)).sum

/-- Modelled from the spec: the frequency the spec prescribes for a mined
pattern — the number of distinct sessions in which the tuple occurs as a
contiguous subsequence (one count per qualifying session). -/
def specSessionFrequency (g : List String) (seqs : List (List String)) : Nat :=
  (seqs.filter (fun s => decide (g <:+: s))).length

/-! ### `calculate_candidate_score` -/

/-- The `learning` block of `config.json`, with `.get` defaults already
resolved (defaults: `min_frequency = 2`, `min_complexity = 3`,
`max_complexity = 7`, `score_threshold = 0.6`). -/
structure LearningConfig where
  min_frequency : Nat
  min_complexity : Nat
  max_complexity : Nat
  score_threshold : ℚ
deriving DecidableEq

def defaultLearningConfig : LearningConfig :=
  { min_frequency := 2, min_complexity := 3, max_complexity := 7,
    score_threshold := mkRat 3 5 }

/-- Frequency sub-score (30%): `min(frequency / (min_freq * 2), 1.0) * 0.3`. -/
def freqScore (frequency : Nat) (cfg : LearningConfig) : ℚ :=
  qmul (min (qdiv (frequency : ℚ) ((cfg.min_frequency * 2 : Nat) : ℚ)) 1) (mkRat 3 10)

/-- Complexity sub-score (20%): best in the middle of
`[min_complexity, max_complexity]`, flat `0.05` outside the range. -/
def complexityScore (seqLen : Nat) (cfg : LearningConfig) : ℚ :=
  if cfg.min_complexity ≤ seqLen ∧ seqLen ≤ cfg.max_complexity then
    let optimal : ℚ := mkRat ((cfg.min_complexity + cfg.max_complexity : Nat) : Int) 2
    qmul (qsub 1 (qdiv |qsub ((seqLen : ℚ)) optimal| optimal)) (mkRat 1 5)
  else mkRat 1 20

/-- Domain-clarity sub-score (25%): `0.25` for a truthy `domain_match`
(Python truthiness: `None` and `""` are falsy), else `0.1`. -/
def domainScore (domain_match : Option String) : ℚ :=
  match domain_match with
  | some d => if d = "" then mkRat 1 10 else mkRat 1 4
  | none => mkRat 1 10

/-- Distinctiveness sub-score (25%): `min(len(set(sequence)) / 4, 1.0) * 0.25`. -/
def distinctivenessScore (sequence : List String) : ℚ :=
  qmul (min (qdiv (((insertionDedup sequence).length : Nat) : ℚ) ((4 : Nat) : ℚ)) 1) (mkRat 1 4)

/-- `calculate_candidate_score(sequence, frequency, domain_match, config)`. -/
def calculate_candidate_score (sequence : List String) (frequency : Nat)
    (domain_match : Option String) (cfg : LearningConfig) : ℚ :=
  pyRound2 (qadd (qadd (qadd (freqScore frequency cfg)
    (complexityScore sequence.length cfg)) (domainScore domain_match))
    (distinctivenessScore sequence))

/-! ### Candidate generation (`run_learning`, sequence-pattern loop) -/

/-- ASCII lowering of a string (Python `str.lower`; tool names are ASCII). -/
def strLower (s : String) : String := String.mk (s.toList.map Char.toLower)

/-- `generate_skill_name(sequence, domain)`: prefix the domain (or
`workflow`), join the two most common tools of the sequence
(`Counter.most_common(2)`, ties in first-occurrence order), replace every
character that is not alphanumeric or a dash by a dash, truncate to 50. -/
def generate_skill_name (sequence : List String) (domain : Option String) : String :=
  let counted := (insertionDedup sequence).map (fun t => (t, sequence.count t))
  let top := ((sortDescBy (fun p => p.2) counted).take 2).map (fun p => strLower p.1)
  let base := match domain with
    | some d =>
      if d = "" then "workflow-" ++ String.intercalate "-" top
      else d ++ "-" ++ String.intercalate "-" top
    | none => "workflow-" ++ String.intercalate "-" top
  String.mk ((base.toList.map (fun c => if c.isAlphanum ∨ c = '-' then c else '-')).take 50)

/-- `infer_domain_from_sequence(sequence, tool_patterns)`: most common
truthy `domain_hint` among records whose tool occurs in the sequence. -/
def infer_domain_from_sequence (sequence : List String) (tps : List ToolPattern) :
    Option String :=
  let hints := tps.filterMap (fun p => match p.tool with
    | some t =>
      if t ∈ sequence then
        match p.domain_hint with
        | some h => if h = "" then none else some h
        | none => none
      else none
    | none => none)
  ((sortDescBy (fun p => p.2) ((insertionDedup hints).map (fun h => (h, hints.count h)))).head?).map
    (fun p => p.1)

/-- The fields of a persisted candidate that the analysis needs
(`create_candidate` additionally stores a random `candidate_id`, a
timestamp, intents and a preview — none of which feed back into the run). -/
structure Candidate where
  skill_name : String
  domain : Option String
  score : ℚ
  frequency : Nat
  tool_sequence : List String
deriving DecidableEq

/-- The candidate-generation loop of `run_learning` over the mined
patterns: score each `(sequence, frequency)` pair, keep those at or above
`score_threshold`, and skip a candidate whose derived name is in
`existing_skills` (the skill directories on disk, from
`load_existing_skills`).  The list of already-saved candidates of the
current run is not consulted. -/
def candidateLoop (repeated : List (List String × Nat)) (tps : List ToolPattern)
    (existing_skills : List String) (cfg : LearningConfig) : List Candidate :=
  repeated.foldl (fun acc p =>
    let domain := infer_domain_from_sequence p.1 tps
    let score := calculate_candidate_score p.1 p.2 domain cfg
    if cfg.score_threshold ≤ score then
      let c : Candidate := { skill_name := generate_skill_name p.1 domain,
                             domain := domain, score := score, frequency := p.2,
                             tool_sequence := p.1 }
      if c.skill_name ∈ existing_skills then acc else acc ++ [c]
    else acc) []

/-- `run_learning` (sequence-pattern part): mine the repeated
subsequences of the extracted sessions and run the candidate loop.
Fewer than 5 tool patterns short-circuit to no candidates.  The
intent-based second loop runs only when a prompt analysis is available;
it is outside this model (`prompt_analysis = {}`). -/
def run_learning (tps : List ToolPattern) (existing_skills : List String)
    (cfg : LearningConfig) : List Candidate :=
  if tps.length < 5 then []
  else candidateLoop
    (find_repeated_subsequences (extract_tool_sequences tps) cfg.min_complexity
      cfg.max_complexity)
    tps existing_skills cfg

/-! ### `improve.py`: data model -/

/-- The `effectiveness` block of `skill.meta.json`; `none` models an
absent key (defaults applied at the `.get` call sites, as in the source). -/
structure EffBlock where
  usage_count : Option Nat
  success_rate : Option ℚ
  last_improvement : Option String
deriving DecidableEq

/-- `skill.meta.json` as used by `improve.py`. -/
structure SkillMeta where
  version : Option String
  effectiveness : Option EffBlock
  updated_at : Option String
deriving DecidableEq

/-- A record of the global `patterns/feedback.jsonl` log. -/
structure Feedback where
  classification : Option String
  error_type : Option String
deriving DecidableEq

/-- The dictionary returned by `analyze_effectiveness`. -/
structure Analysis where
  usage_count : Nat
  success_rate : ℚ
  failure_types : List (String × Nat)
  total_feedback : Nat
deriving DecidableEq

/-- The `improvement` block of `config.json`, with `.get` defaults
already resolved. -/
structure ImprovementConfig where
  auto_apply_threshold : ℚ
  min_usage_before_improve : Nat
  success_rate_trigger : ℚ
deriving DecidableEq

def defaultImprovementConfig : ImprovementConfig :=
  { auto_apply_threshold := mkRat 9 10, min_usage_before_improve := 10,
    success_rate_trigger := mkRat 7 10 }

/-- `analyze_effectiveness(skill_name, meta)`: success rate and failure
histogram computed from the GLOBAL feedback log (`load_feedback_patterns`
reads one shared file; nothing is filtered by `skill_name`, whose
parameter is unused in the source as well).  `feedback` is the
window-filtered content of that log. -/
def analyze_effectiveness (skill_name : String) (meta : SkillMeta)
    (feedback : List Feedback) : Analysis :=
  let eff := meta.effectiveness.getD ⟨none, none, none⟩
  let successes := (feedback.filter (fun f => f.classification = some "success")).length
  let failures := (feedback.filter (fun f => f.classification = some "failure")).length
  let total := successes + failures
  let rate := if 0 < total then qdiv ((successes : Nat) : ℚ) ((total : Nat) : ℚ)
              else eff.success_rate.getD 1
  let ftypes := (feedback.filter (fun f => f.classification = some "failure")).map
    (fun f => f.error_type.getD "unknown")
  { usage_count := eff.usage_count.getD 0 + feedback.length,
    success_rate := pyRound2 rate,
    failure_types := (sortDescBy (fun p => p.2)
      ((insertionDedup ftypes).map (fun t => (t, ftypes.count t)))).take 5,
    total_feedback := total }

/-- The pairs of `used_tools.most_common(10)` in `detect_missing_tools`. -/
def mostCommon10 (tps : List ToolPattern) : List (String × Nat) :=
  let used := toolsOf tps
  (sortDescBy (fun p => p.2) ((insertionDedup used).map (fun t => (t, used.count t)))).take 10

/-- `detect_missing_tools(skill_name, meta)`: among the 10 most-used
tools of the window, keep those used at least 3 times and not in the
artifact's allowed-tools, then cap at 5.  `allowed_tools` stands for the
list parsed from the SKILL.md frontmatter (a lone string is wrapped into
a one-element list by the source before this logic runs). -/
def detect_missing_tools (allowed_tools : List String) (tps : List ToolPattern) :
    List String :=
  (((mostCommon10 tps).filter (fun p => ¬ p.1 ∈ allowed_tools ∧ 3 ≤ p.2)).map
    (fun p => p.1)).take 5

/-- One entry of a proposal's `improvements` list (the human-readable
`details`/`action` strings carry no further data). -/
inductive Improvement where
  | success_rate_low
  | missing_tools (tools : List String)
  | recurring_failure (error_kind : String)
deriving DecidableEq

/-- An improvement proposal. -/
structure Proposal where
  skill_name : String
  current_version : String
  improvements : List Improvement
  confidence : ℚ
  missing_tools : List String
deriving DecidableEq

/-- `generate_improvement(skill_name, meta, analysis, missing_tools)`:
collect the triggered improvements (the success-rate trigger is the only
one gated by the usage count); if none triggered return `None`, else
score the confidence (base 0.5, +0.3 for missing tools, +0.1 for a
success rate strictly below 0.5, +0.1 for usage at least twice the
minimum, capped at 1.0). -/
def generate_improvement (skill_name : String) (meta : SkillMeta)
    (analysis : Analysis) (missing_tools : List String)
    (cfg : ImprovementConfig) : Option Proposal :=
  let imps1 : List Improvement :=
    if cfg.min_usage_before_improve ≤ analysis.usage_count ∧
        analysis.success_rate < cfg.success_rate_trigger
    then [.success_rate_low] else []
  let imps2 := imps1 ++ (if missing_tools ≠ [] then [.missing_tools missing_tools] else [])
  let imps3 := imps2 ++ (match analysis.failure_types.head? with
    | some tk => if 3 ≤ tk.2 then [.recurring_failure tk.1] else []
    | none => [])
  if imps3 = [] then none
  else
    let confidence :=
      qadd (qadd (qadd (mkRat 1 2)
        (if missing_tools ≠ [] then mkRat 3 10 else mkRat 0 1))
        (if analysis.success_rate < mkRat 1 2 then mkRat 1 10 else mkRat 0 1))
        (if cfg.min_usage_before_improve * 2 ≤ analysis.usage_count then mkRat 1 10
         else mkRat 0 1)
    some { skill_name := skill_name, current_version := meta.version.getD "1.0.0",
           improvements := imps3, confidence := min confidence 1,
           missing_tools := missing_tools }

/-! ### `apply_improvement` and `update_changelog`

The SKILL.md file is represented by its parsed frontmatter
(`parse_skill_yaml`) and body; `serialize_skill_yaml`/`save_skill_md` are
the identity on this representation.  A YAML mapping is an ordered
association list, as a Python dict: `yamlSet` updates an existing key in
place and appends a missing one. -/

inductive YamlVal where
  | str (s : String)
  | list (items : List String)
deriving DecidableEq

abbrev Yaml := List (String × YamlVal)

def yamlGet (y : Yaml) (k : String) : Option YamlVal :=
  (y.find? (fun p => p.1 = k)).map (fun p => p.2)

def yamlSet (y : Yaml) (k : String) (v : YamlVal) : Yaml :=
  if y.any (fun p => p.1 = k) then y.map (fun p => if p.1 = k then (k, v) else p)
  else y ++ [(k, v)]

/-- `yaml_data.get("allowed-tools", [])`, with the source's
`isinstance(-, str)` wrapping. -/
def yamlTools (y : Yaml) : List String :=
  match yamlGet y "allowed-tools" with
  | some (.str s) => [s]
  | some (.list l) => l
  | none => []

/-- `yaml_data.get("version", "1.0.0")`.  A list-valued `version` would
make the Python `.split(".")` raise; that crash is `none`. -/
def versionString (y : Yaml) : Option String :=
  match yamlGet y "version" with
  | none => some "1.0.0"
  | some (.str s) => some s
  | some (.list _) => none

/-- Python `s.split(sep)` for a one-character separator. -/
def splitChar (sep : Char) : List Char → List (List Char)
  | [] => [[]]
  | c :: cs =>
    match splitChar sep cs with
    | [] => [[]]
    | h :: t => if c = sep then [] :: h :: t else (c :: h) :: t

def pySplit (s : String) (sep : Char) : List String :=
  (splitChar sep s.toList).map String.mk

/-- A digits-only numeral.  (Python `int()` additionally strips
whitespace, an optional `+` and underscores; not modelled.) -/
def digitsVal (l : List Char) : Option Nat :=
  match l with
  | [] => none
  | _ => l.foldl (fun acc c =>
      match acc with
      | none => none
      | some n => if c.isDigit then some (n * 10 + (c.toNat - 48)) else none)
      (some 0)

/-- Python `int(s)` on a plain (optionally negative) numeral; `none` is
the `ValueError` crash. -/
def pyInt (s : String) : Option Int :=
  match s.toList with
  | '-' :: rest => (digitsVal rest).map (fun n => -(n : Int))
  | l => (digitsVal l).map (fun n => (n : Int))

/-- The body of the new changelog entry written by `update_changelog`. -/
def changelogEntry (version date : String) (changes : List String) : String :=
  "\n## [" ++ version ++ "] - " ++ date ++ "\n\n### Changed (Auto-improved)\n\n"
    ++ String.join (changes.map (fun c => "- " ++ c ++ "\n"))

/-- `update_changelog(skill_name, version, changes)` as a pure function of
the previous file content (`none` = the file does not exist): insert the
new entry before the first `"## ["` if one exists, else append. -/
def update_changelog (prev : Option String) (version date : String)
    (changes : List String) : String :=
  let content := prev.getD "# Changelog\n\n"
  let entry := changelogEntry version date changes
  match findSub "## [".toList content.toList with
  | some i =>
    String.mk ((content.toList.take i) ++ entry.toList ++ '\n' :: content.toList.drop i)
  | none => content ++ entry

/-- The on-disk artifact state touched by `apply_improvement`:
the parsed SKILL.md (if the file exists), the metadata (if
`skill.meta.json` exists) and the CHANGELOG.md content (if it exists). -/
structure SkillState where
  skill_md : Option (Yaml × String)
  meta : Option SkillMeta
  changelog : Option String
deriving DecidableEq

/-- `apply_improvement(skill_name, proposal)` as a state transformer.
Returns the applied-flag of the source together with the new state;
`none` models an uncaught exception (a malformed `version` reaching
`int()`).  `date`/`now` stand for `datetime.utcnow()`.  The final
`commit_improvement` git call touches no modelled state. -/
def apply_improvement (proposal : Proposal) (cfg : ImprovementConfig)
    (date now : String) (st : SkillState) : Option (Bool × SkillState) :=
  if proposal.confidence < cfg.auto_apply_threshold then some (false, st)
  else
    match st.skill_md, st.meta with
    | none, _ => some (false, st)
    | some _, none => some (false, st)
    | some (yaml, body), some meta =>
      let upd := proposal.missing_tools.foldl
        (fun (p : List String × List String) tool =>
          if tool ∈ p.1 then p
          else (p.1 ++ [tool], p.2 ++ ["Added " ++ tool ++ " to allowed-tools"]))
        (yamlTools yaml, [])
      let yaml1 := if proposal.missing_tools = [] then yaml
                   else yamlSet yaml "allowed-tools" (.list upd.1)
      match versionString yaml1 with
      | none => none
      | some current_version =>
        let bump : Option String :=
          match pySplit current_version '.' with
          | [maj, mnr, _] => (pyInt mnr).map (fun m => maj ++ "." ++ toString (m + 1) ++ ".0")
          | _ => some current_version
        match bump with
        | none => none
        | some new_version =>
          let yaml2 := yamlSet yaml1 "version" (.str new_version)
          let eff := meta.effectiveness.getD ⟨none, none, none⟩
          let meta' : SkillMeta :=
            { version := some new_version,
              effectiveness := some { eff with last_improvement := some now },
              updated_at := some now }
          let changelog' := update_changelog st.changelog new_version date upd.2
          some (true, { skill_md := some (yaml2, body), meta := some meta',
                        changelog := some changelog' })

/-! ### Lemmas about `joinArrow` and the subsumption loop -/

theorem joinArrow_append (a b : List String) (ha : a ≠ []) (hb : b ≠ []) :
    joinArrow (a ++ b) = joinArrow a ++ '-' :: '>' :: joinArrow b := by
  induction a with
  | nil => exact absurd rfl ha
  | cons x a ih =>
    cases a with
    | nil =>
      cases b with
      | nil => exact absurd rfl hb
      | cons y b => simp [joinArrow]
    | cons z a' =>
      have h := ih (by simp)
      simp only [List.cons_append] at h ⊢
      rw [joinArrow, joinArrow, h]
      simp

/-- A contiguous sub-tuple gives a substring of the arrow-joins (the
direction the subsumption loop relies on). -/
theorem joinArrow_mono {a b : List String} (h : a <:+: b) :
    joinArrow a <:+: joinArrow b := by
  obtain ⟨p, s, hps⟩ := h
  rcases eq_or_ne a [] with rfl | ha
  · simpa [joinArrow] using List.nil_infix
  rcases eq_or_ne p [] with rfl | hp
  · rcases eq_or_ne s [] with rfl | hs
    · simp only [List.nil_append, List.append_nil] at hps
      rw [hps]
    · simp only [List.nil_append] at hps
      rw [← hps, joinArrow_append a s ha hs]
      exact ⟨[], '-' :: '>' :: joinArrow s, by simp⟩
  · rcases eq_or_ne s [] with rfl | hs
    · simp only [List.append_nil] at hps
      rw [← hps, joinArrow_append p a hp ha]
      exact ⟨joinArrow p ++ ['-', '>'], [], by simp⟩
    · have hassoc : p ++ a ++ s = p ++ (a ++ s) := by simp [List.append_assoc]
      rw [hassoc] at hps
      rw [← hps, joinArrow_append p (a ++ s) hp (by simp [ha]),
        joinArrow_append a s ha hs]
      exact ⟨joinArrow p ++ ['-', '>'], '-' :: '>' :: joinArrow s, by simp⟩

/-- Everything the fold produces was already kept or comes from the
processed list. -/
theorem subsFold_mem (l : List (List String × Nat)) :
    ∀ (acc : List (List String × Nat)) (x : List String × Nat),
      x ∈ l.foldl subsStep acc → x ∈ acc ∨ x ∈ l := by
  induction l with
  | nil => intro acc x hx; exact Or.inl hx
  | cons g l ih =>
    intro acc x hx
    rcases ih (subsStep acc g) x hx with h | h
    · rw [subsStep] at h
      by_cases hc : acc.any (fun e => subsumedBy g.1 e.1)
      · rw [if_pos hc] at h; exact Or.inl h
      · rw [if_neg hc] at h
        rcases List.mem_append.mp h with h | h
        · exact Or.inl h
        · simp only [List.mem_singleton] at h
          exact Or.inr (h ▸ List.mem_cons_self g l)
    · exact Or.inr (List.mem_cons_of_mem g h)

/-- Invariant behind the subsumption reduction: among the kept entries,
no arrow-join of a shorter one occurs inside the arrow-join of a longer
one. -/
def GoodJoin (l : List (List String × Nat)) : Prop :=
  ∀ p ∈ l, ∀ q ∈ l, p.1.length < q.1.length → ¬ (joinArrow p.1 <:+: joinArrow q.1)

theorem subsFold_good (l : List (List String × Nat)) :
    ∀ (acc : List (List String × Nat)),
      GoodJoin acc →
      (∀ a ∈ acc, ∀ b ∈ l, b.1.length ≤ a.1.length) →
      l.Pairwise (fun a b => b.1.length ≤ a.1.length) →
      GoodJoin (l.foldl subsStep acc) := by
  induction l with
  | nil => intro acc hg _ _; exact hg
  | cons g l ih =>
    intro acc hg hle hpw
    rcases List.pairwise_cons.mp hpw with ⟨hgl, hpw'⟩
    rw [List.foldl_cons]
    by_cases hc : acc.any (fun e => subsumedBy g.1 e.1)
    · rw [subsStep, if_pos hc]
      refine ih acc hg ?_ hpw'
      intro a ha b hb
      exact hle a ha b (List.mem_cons_of_mem g hb)
    · rw [subsStep, if_neg hc]
      have hfalse : acc.any (fun e => subsumedBy g.1 e.1) = false := by
        simpa using hc
      have hnone : ∀ e ∈ acc, ¬ (g.1.length < e.1.length ∧ joinArrow g.1 <:+: joinArrow e.1) := by
        intro e he hPP
        exact (List.any_eq_false.mp hfalse e he) (by rw [subsumedBy]; exact decide_eq_true hPP)
      refine ih (acc ++ [g]) ?_ ?_ hpw'
      · intro p hp q hq hlen
        rcases List.mem_append.mp hp with hp' | hp' <;>
          rcases List.mem_append.mp hq with hq' | hq'
        · exact hg p hp' q hq' hlen
        · simp only [List.mem_singleton] at hq'
          have hgp := hle p hp' g (List.mem_cons_self g l)
          rw [hq'] at hlen
          exact absurd hlen (by omega)
        · simp only [List.mem_singleton] at hp'
          rw [hp']
          intro hinf
          rw [hp'] at hlen
          exact hnone q hq' ⟨hlen, hinf⟩
        · simp only [List.mem_singleton] at hp' hq'
          rw [hp', hq'] at hlen
          exact absurd hlen (by omega)
      · intro a ha b hb
        rcases List.mem_append.mp ha with ha' | ha'
        · exact hle a ha' b (List.mem_cons_of_mem g hb)
        · simp only [List.mem_singleton] at ha'
          subst ha'
          exact hgl b hb

/-! ### Counting lemmas for the n-gram miner -/

theorem length_of_mem_ngramsAt {seq : List String} {n : Nat} {g : List String}
    (h : g ∈ ngramsAt seq n) : g.length = n := by
  rw [ngramsAt] at h
  obtain ⟨i, hi, rfl⟩ := List.mem_map.mp h
  rw [List.mem_range] at hi
  rw [List.length_take, List.length_drop]
  omega

theorem count_ngramsAt_ne {seq : List String} {n : Nat} {g : List String}
    (h : g.length ≠ n) : (ngramsAt seq n).count g = 0 :=
  List.count_eq_zero.mpr (fun hm => h (length_of_mem_ngramsAt hm))

theorem count_seqNgrams {g seq : List String} {minLen maxLen : Nat}
    (h1 : minLen ≤ g.length) (h2 : g.length ≤ maxLen) :
    (seqNgrams minLen maxLen seq).count g = occCount g seq := by
  rw [seqNgrams, List.count_flatMap]
  have key : ∀ ns : List Nat, ns.Nodup →
      ((ns.map (List.count g ∘ ngramsAt seq)).sum)
        = if g.length ∈ ns then occCount g seq else 0 := by
    intro ns hnd
    induction ns with
    | nil => simp
    | cons m ms ih =>
      rcases List.nodup_cons.mp hnd with ⟨hm, hnd'⟩
      simp only [List.map_cons, List.sum_cons, ih hnd']
      by_cases he : g.length = m
      · have hnotms : g.length ∉ ms := by rw [he]; exact hm
        rw [if_neg hnotms, if_pos (by rw [he]; exact List.mem_cons_self m ms)]
        simp only [Function.comp_apply, Nat.add_zero, ← he, occCount]
      · have hz : (List.count g ∘ ngramsAt seq) m = 0 := count_ngramsAt_ne he
        rw [hz, Nat.zero_add]
        have hiff : (g.length ∈ ms) ↔ (g.length ∈ m :: ms) := by
          simp [List.mem_cons, he]
        exact if_congr hiff rfl rfl
  rw [key _ (List.nodup_range' _ _)]
  by_cases hin : g.length ∈ List.range' minLen (min maxLen seq.length + 1 - minLen)
  · rw [if_pos hin]
  · rw [if_neg hin]
    rw [List.mem_range'_1] at hin
    push_neg at hin
    have hlong : seq.length < g.length := by
      have := hin h1
      omega
    rw [occCount, ngramsAt]
    have hz : seq.length + 1 - g.length = 0 := by omega
    rw [hz]
    simp

theorem count_allNgrams {g : List String} {seqs : List (List String)} {minLen maxLen : Nat}
    (h1 : minLen ≤ g.length) (h2 : g.length ≤ maxLen) :
    (allNgrams minLen maxLen seqs).count g = totalOccurrences g seqs := by
  rw [allNgrams, List.count_flatMap, totalOccurrences]
  congr 1
  induction seqs with
  | nil => rfl
  | cons s ss ih =>
    simp only [List.map_cons, ih]
    congr 1
    exact count_seqNgrams h1 h2

theorem length_bounds_of_mem_allNgrams {g : List String} {seqs : List (List String)}
    {minLen maxLen : Nat} (h : g ∈ allNgrams minLen maxLen seqs) :
    minLen ≤ g.length ∧ g.length ≤ maxLen := by
  rw [allNgrams] at h
  obtain ⟨seq, _, hg⟩ := List.mem_flatMap.mp h
  rw [seqNgrams] at hg
  obtain ⟨n, hn, hgn⟩ := List.mem_flatMap.mp hg
  have hlen := length_of_mem_ngramsAt hgn
  rw [List.mem_range'_1] at hn
  omega

/-- Every pair the miner emits carries the n-gram's total occurrence
count over all sessions, and that count is at least 2. -/
theorem mem_find_repeated {seqs : List (List String)} {minLen maxLen : Nat}
    {p : List String × Nat} (h : p ∈ find_repeated_subsequences seqs minLen maxLen) :
    p.1 ∈ allNgrams minLen maxLen seqs
      ∧ p.2 = (allNgrams minLen maxLen seqs).count p.1 ∧ 2 ≤ p.2 := by
  rw [find_repeated_subsequences] at h
  rcases subsFold_mem _ [] p h with h' | h'
  · exact absurd h' (List.not_mem_nil p)
  · rw [mem_sortDescBy] at h'
    rcases List.mem_filter.mp h' with ⟨hmem, hcnt⟩
    obtain ⟨a, ha, hap⟩ := List.mem_map.mp hmem
    rw [mem_insertionDedup] at ha
    refine ⟨?_, ?_, ?_⟩
    · rw [← hap]; exact ha
    · rw [← hap]
    · exact of_decide_eq_true hcnt

/-! ### Claims C1 and C2 -/

/-- C1 (counterexample): the claim states that the frequency recorded by
`find_repeated_subsequences` for a mined pattern equals the number of
distinct sessions containing the tuple, with at most one increment per
session.  It is false: for the single session
`A B C A B C` the miner records frequency 2 for `(A, B, C)` (one per
occurrence), while only 1 distinct session contains it. -/
theorem c1_per_session_claim_false :
    ¬ (∀ (seqs : List (List String)) (minLen maxLen : Nat),
        ∀ p ∈ find_repeated_subsequences seqs minLen maxLen,
        p.2 = specSessionFrequency p.1 seqs) := by
  intro h
  have h2 := h [["A", "B", "C", "A", "B", "C"]] 3 7 (["A", "B", "C"], 2) (by decide)
  exact absurd h2 (by decide)

/-- C1 (amended): the frequency recorded for a mined pattern is the total
number of occurrences of the tuple as a contiguous subsequence summed over
all sessions — each starting position counts, so repeated occurrences
inside one session each raise the frequency — and it is at least 2. -/
theorem c1_frequency_is_total_occurrences (seqs : List (List String))
    (minLen maxLen : Nat) (p : List String × Nat)
    (h : p ∈ find_repeated_subsequences seqs minLen maxLen) :
    p.2 = totalOccurrences p.1 seqs ∧ 2 ≤ p.2 := by
  obtain ⟨hmem, hcount, h2⟩ := mem_find_repeated h
  obtain ⟨hlo, hhi⟩ := length_bounds_of_mem_allNgrams hmem
  exact ⟨hcount.trans (count_allNgrams hlo hhi), h2⟩

/-- Witness for `c1_frequency_is_total_occurrences` at the session list
`[A B C A B C]`. -/
theorem c1_frequency_is_total_occurrences_witness :
    (["A", "B", "C"], 2) ∈ find_repeated_subsequences [["A", "B", "C", "A", "B", "C"]] 3 7
      ∧ (2 = totalOccurrences ["A", "B", "C"] [["A", "B", "C", "A", "B", "C"]] ∧ 2 ≤ 2) :=
  ⟨by decide, c1_frequency_is_total_occurrences [["A", "B", "C", "A", "B", "C"]] 3 7
    (["A", "B", "C"], 2) (by decide)⟩

/-- C2: after the subsumption reduction of `find_repeated_subsequences`,
no retained pattern is a contiguous sub-tuple of a longer retained
pattern. -/
theorem c2_no_retained_subtuple (seqs : List (List String)) (minLen maxLen : Nat)
    (p q : List String × Nat)
    (hp : p ∈ find_repeated_subsequences seqs minLen maxLen)
    (hq : q ∈ find_repeated_subsequences seqs minLen maxLen)
    (hlen : p.1.length < q.1.length) : ¬ (p.1 <:+: q.1) := by
  rw [find_repeated_subsequences] at hp hq
  intro hinf
  have hgood := subsFold_good
    (sortDescBy (fun r => r.1.length)
      (((insertionDedup (allNgrams minLen maxLen seqs)).map
        (fun g => (g, (allNgrams minLen maxLen seqs).count g))).filter (fun r => 2 ≤ r.2)))
    [] (by intro a ha; exact absurd ha (List.not_mem_nil a))
    (by intro a ha; exact absurd ha (List.not_mem_nil a))
    (pairwise_sortDescBy _ _)
  exact hgood p hp q hq hlen (joinArrow_mono hinf)

/-- Witness for `c2_no_retained_subtuple`: with sessions
`a b c d`, `a b c d`, `x y z`, `x y z` both `(a,b,c,d)` and `(x,y,z)` are
retained, and the shorter is indeed not a sub-tuple of the longer. -/
theorem c2_no_retained_subtuple_witness :
    (["x", "y", "z"], 2) ∈ find_repeated_subsequences
        [["a", "b", "c", "d"], ["a", "b", "c", "d"], ["x", "y", "z"], ["x", "y", "z"]] 3 7
      ∧ (["a", "b", "c", "d"], 2) ∈ find_repeated_subsequences
        [["a", "b", "c", "d"], ["a", "b", "c", "d"], ["x", "y", "z"], ["x", "y", "z"]] 3 7
      ∧ ¬ (["x", "y", "z"] <:+: ["a", "b", "c", "d"]) :=
  ⟨by decide, by decide,
    c2_no_retained_subtuple
      [["a", "b", "c", "d"], ["a", "b", "c", "d"], ["x", "y", "z"], ["x", "y", "z"]] 3 7
      (["x", "y", "z"], 2) (["a", "b", "c", "d"], 2)
      (by decide) (by decide) (by decide)⟩

/-! ### Claim C6 -/

/-- Sixteen tool patterns: sessions `s1`,`s2` run `a b c d` and sessions
`s3`,`s4` run `a b e f`.  The two mined patterns `(a,b,c,d)` and
`(a,b,e,f)` both derive the skill name `workflow-a-b`. -/
def c6Patterns : List ToolPattern :=
  [⟨some "s1", some "a", none, none⟩, ⟨some "s1", some "b", none, none⟩,
   ⟨some "s1", some "c", none, none⟩, ⟨some "s1", some "d", none, none⟩,
   ⟨some "s2", some "a", none, none⟩, ⟨some "s2", some "b", none, none⟩,
   ⟨some "s2", some "c", none, none⟩, ⟨some "s2", some "d", none, none⟩,
   ⟨some "s3", some "a", none, none⟩, ⟨some "s3", some "b", none, none⟩,
   ⟨some "s3", some "e", none, none⟩, ⟨some "s3", some "f", none, none⟩,
   ⟨some "s4", some "a", none, none⟩, ⟨some "s4", some "b", none, none⟩,
   ⟨some "s4", some "e", none, none⟩, ⟨some "s4", some "f", none, none⟩]

/-- C6 (counterexample): the claim states that when two candidates of the
same run derive the same skill name, only the first is persisted.  It is
false: the name check compares only against the pre-existing skill list
loaded once at the start (`load_existing_skills`), never against the
candidates already saved in the same run, so this run persists two
candidates both named `workflow-a-b`. -/
theorem c6_intra_run_dedup_counterexample :
    (run_learning c6Patterns [] defaultLearningConfig).map (fun c => c.skill_name)
      = ["workflow-a-b", "workflow-a-b"] := by decide

theorem candidateLoop_names_aux (repeated : List (List String × Nat))
    (tps : List ToolPattern) (existing : List String) (cfg : LearningConfig) :
    ∀ (acc : List Candidate), (∀ c ∈ acc, c.skill_name ∉ existing) →
    ∀ c ∈ repeated.foldl (fun acc p =>
        let domain := infer_domain_from_sequence p.1 tps
        let score := calculate_candidate_score p.1 p.2 domain cfg
        if cfg.score_threshold ≤ score then
          let c : Candidate := { skill_name := generate_skill_name p.1 domain,
                                 domain := domain, score := score, frequency := p.2,
                                 tool_sequence := p.1 }
          if c.skill_name ∈ existing then acc else acc ++ [c]
        else acc) acc,
      c.skill_name ∉ existing := by
  induction repeated with
  | nil => intro acc hacc c hc; exact hacc c hc
  | cons p ps ih =>
    intro acc hacc c hc
    rw [List.foldl_cons] at hc
    refine ih _ ?_ c hc
    intro d hd
    simp only at hd
    by_cases hsc : cfg.score_threshold ≤
        calculate_candidate_score p.1 p.2 (infer_domain_from_sequence p.1 tps) cfg
    · rw [if_pos hsc] at hd
      by_cases hex : generate_skill_name p.1 (infer_domain_from_sequence p.1 tps) ∈ existing
      · rw [if_pos hex] at hd
        exact hacc d hd
      · rw [if_neg hex] at hd
        rcases List.mem_append.mp hd with hd' | hd'
        · exact hacc d hd'
        · simp only [List.mem_singleton] at hd'
          rw [hd']
          exact hex
    · rw [if_neg hsc] at hd
      exact hacc d hd

/-- C6 (amended): the duplicate check of `run_learning` applies only
against the skill names that already existed on disk before the run —
every persisted candidate's derived name is outside `existing_skills` —
while two candidates of the same run that derive the same name are both
persisted (see the counterexample). -/
theorem c6_dedup_only_against_existing (tps : List ToolPattern)
    (existing : List String) (cfg : LearningConfig) (c : Candidate)
    (hc : c ∈ run_learning tps existing cfg) : c.skill_name ∉ existing := by
  rw [run_learning] at hc
  by_cases hlen : tps.length < 5
  · rw [if_pos hlen] at hc
    exact absurd hc (List.not_mem_nil c)
  · rw [if_neg hlen] at hc
    rw [candidateLoop] at hc
    exact candidateLoop_names_aux _ tps existing cfg []
      (by intro d hd; exact absurd hd (List.not_mem_nil d)) c hc

/-- Witness for `c6_dedup_only_against_existing`: the run over
`c6Patterns` against the pre-existing skill `other-skill`. -/
theorem c6_dedup_only_against_existing_witness :
    (run_learning c6Patterns ["other-skill"] defaultLearningConfig).head?.isSome = true
      ∧ ∀ c ∈ (run_learning c6Patterns ["other-skill"] defaultLearningConfig).head?,
          c.skill_name ∉ ["other-skill"] := by
  refine ⟨by decide, ?_⟩
  intro c hc
  exact c6_dedup_only_against_existing c6Patterns ["other-skill"] defaultLearningConfig c
    (List.mem_of_mem_head? hc)

/-! ### Claim C7: score bounds -/

theorem freqScore_bounds (frequency : Nat) (cfg : LearningConfig) :
    0 ≤ freqScore frequency cfg ∧ freqScore frequency cfg ≤ 3/10 := by
  rw [freqScore, qmul_eq, qdiv_eq]
  have h310 : (mkRat 3 10 : ℚ) = 3/10 := by rw [Rat.mkRat_eq_div]; norm_num
  rw [h310]
  have hd : (0 : ℚ) ≤ ((frequency : ℕ) : ℚ) / (((cfg.min_frequency * 2 : ℕ)) : ℚ) := by
    positivity
  have h0 : (0 : ℚ) ≤ min (((frequency : ℕ) : ℚ) / (((cfg.min_frequency * 2 : ℕ)) : ℚ)) 1 :=
    le_min hd zero_le_one
  have h1 : min (((frequency : ℕ) : ℚ) / (((cfg.min_frequency * 2 : ℕ)) : ℚ)) 1 ≤ 1 :=
    min_le_right _ _
  constructor <;> nlinarith

theorem complexityScore_bounds (seqLen : Nat) (cfg : LearningConfig) :
    0 ≤ complexityScore seqLen cfg ∧ complexityScore seqLen cfg ≤ 1/5 := by
  rw [complexityScore]
  by_cases hbr : cfg.min_complexity ≤ seqLen ∧ seqLen ≤ cfg.max_complexity
  · rw [if_pos hbr]
    simp only [qmul_eq, qsub_eq, qdiv_eq]
    have hopt : (mkRat ((cfg.min_complexity + cfg.max_complexity : Nat) : Int) 2 : ℚ)
        = ((cfg.min_complexity + cfg.max_complexity : ℕ) : ℚ) / 2 := by
      rw [Rat.mkRat_eq_div]; norm_num
    have h15 : (mkRat 1 5 : ℚ) = 1/5 := by rw [Rat.mkRat_eq_div]; norm_num
    rw [hopt, h15]
    set M : ℚ := ((cfg.min_complexity + cfg.max_complexity : ℕ) : ℚ) with hM
    set L : ℚ := ((seqLen : ℕ) : ℚ) with hL
    have hL0 : 0 ≤ L := by rw [hL]; positivity
    have hLM : L ≤ M := by
      rw [hL, hM]
      exact_mod_cast Nat.le_trans hbr.2 (Nat.le_add_left _ _)
    by_cases hM0 : M = 0
    · have hLz : L = 0 := le_antisymm (hM0 ▸ hLM) hL0
      rw [hM0, hLz]
      norm_num
    · have hMpos : 0 < M := by
        rw [hM]
        have : cfg.min_complexity + cfg.max_complexity ≠ 0 := by
          intro hz
          exact hM0 (by rw [hM, hz]; norm_num)
        exact_mod_cast Nat.pos_of_ne_zero this
      have habs : |L - M/2| ≤ M/2 := by
        rw [abs_le]
        constructor <;> nlinarith
      have ht0 : 0 ≤ |L - M/2| / (M/2) := by positivity
      have ht1 : |L - M/2| / (M/2) ≤ 1 := by
        rw [div_le_one (by nlinarith)]
        exact habs
      constructor <;> nlinarith
  · rw [if_neg hbr]
    have h120 : (mkRat 1 20 : ℚ) = 1/20 := by rw [Rat.mkRat_eq_div]; norm_num
    rw [h120]
    norm_num

theorem domainScore_bounds (domain : Option String) :
    0 ≤ domainScore domain ∧ domainScore domain ≤ 1/4 := by
  have h14 : (mkRat 1 4 : ℚ) = 1/4 := by rw [Rat.mkRat_eq_div]; norm_num
  have h110 : (mkRat 1 10 : ℚ) = 1/10 := by rw [Rat.mkRat_eq_div]; norm_num
  cases domain with
  | none => simp only [domainScore]; rw [h110]; norm_num
  | some d =>
    simp only [domainScore]
    by_cases hd : d = ""
    · rw [if_pos hd, h110]; norm_num
    · rw [if_neg hd, h14]; norm_num

theorem distinctivenessScore_bounds (sequence : List String) :
    0 ≤ distinctivenessScore sequence ∧ distinctivenessScore sequence ≤ 1/4 := by
  rw [distinctivenessScore, qmul_eq, qdiv_eq]
  have h14 : (mkRat 1 4 : ℚ) = 1/4 := by rw [Rat.mkRat_eq_div]; norm_num
  rw [h14]
  have hd : (0 : ℚ) ≤ (((insertionDedup sequence).length : ℕ) : ℚ) / (((4 : ℕ)) : ℚ) := by
    positivity
  have h0 : (0 : ℚ) ≤ min ((((insertionDedup sequence).length : ℕ) : ℚ) / (((4 : ℕ)) : ℚ)) 1 :=
    le_min hd zero_le_one
  have h1 : min ((((insertionDedup sequence).length : ℕ) : ℚ) / (((4 : ℕ)) : ℚ)) 1 ≤ 1 :=
    min_le_right _ _
  constructor <;> nlinarith

/-- C7: the candidate score is a deterministic function of
`(sequence, frequency, domain, config)` — it is a pure function of those
arguments — and for every valid configuration (positive `min_frequency`
and `min_complexity`; Python would divide by zero otherwise) each
sub-score stays within `[0, weight]` and the total score lies in `[0, 1]`. -/
theorem c7_score_bounds (sequence : List String) (frequency : Nat)
    (domain : Option String) (cfg : LearningConfig)
    (hf : 1 ≤ cfg.min_frequency) (hc : 1 ≤ cfg.min_complexity) :
    (0 ≤ freqScore frequency cfg ∧ freqScore frequency cfg ≤ 3/10)
    ∧ (0 ≤ complexityScore sequence.length cfg
        ∧ complexityScore sequence.length cfg ≤ 1/5)
    ∧ (0 ≤ domainScore domain ∧ domainScore domain ≤ 1/4)
    ∧ (0 ≤ distinctivenessScore sequence ∧ distinctivenessScore sequence ≤ 1/4)
    ∧ 0 ≤ calculate_candidate_score sequence frequency domain cfg
    ∧ calculate_candidate_score sequence frequency domain cfg ≤ 1 := by
  obtain ⟨hf0, hf1⟩ := freqScore_bounds frequency cfg
  obtain ⟨hc0, hc1⟩ := complexityScore_bounds sequence.length cfg
  obtain ⟨hd0, hd1⟩ := domainScore_bounds domain
  obtain ⟨hs0, hs1⟩ := distinctivenessScore_bounds sequence
  have hsum := pyRound2_mem_unit (x := qadd (qadd (qadd (freqScore frequency cfg)
      (complexityScore sequence.length cfg)) (domainScore domain))
      (distinctivenessScore sequence))
    (by simp only [qadd_eq]; linarith) (by simp only [qadd_eq]; linarith)
  rw [calculate_candidate_score]
  exact ⟨⟨hf0, hf1⟩, ⟨hc0, hc1⟩, ⟨hd0, hd1⟩, ⟨hs0, hs1⟩, hsum.1, hsum.2⟩

/-- Witness for `c7_score_bounds` at a concrete input with the default
configuration. -/
theorem c7_score_bounds_witness :
    1 ≤ defaultLearningConfig.min_frequency ∧ 1 ≤ defaultLearningConfig.min_complexity
      ∧ 0 ≤ calculate_candidate_score ["Read", "Edit", "Bash"] 3 (some "devops")
              defaultLearningConfig
      ∧ calculate_candidate_score ["Read", "Edit", "Bash"] 3 (some "devops")
          defaultLearningConfig ≤ 1 := by
  refine ⟨by decide, by decide, ?_, ?_⟩
  · exact (c7_score_bounds ["Read", "Edit", "Bash"] 3 (some "devops")
      defaultLearningConfig (by decide) (by decide)).2.2.2.2.1
  · exact (c7_score_bounds ["Read", "Edit", "Bash"] 3 (some "devops")
      defaultLearningConfig (by decide) (by decide)).2.2.2.2.2

/-! ### Claims C3, C4, C5 -/

/-- C3: a proposal whose confidence is strictly below the auto-apply
threshold is not applied absent a force override (the `--force` path of
the CLI overwrites the confidence with 1.0 before this function runs):
`apply_improvement` returns `False` ("queued for manual approval") and the
artifact state — frontmatter with allowed-tools and version, metadata,
changelog — is returned exactly as it was. -/
theorem c3_below_threshold_no_mutation (proposal : Proposal)
    (cfg : ImprovementConfig) (date now : String) (st : SkillState)
    (h : proposal.confidence < cfg.auto_apply_threshold) :
    apply_improvement proposal cfg date now st = some (false, st) := by
  rw [apply_improvement, if_pos h]

/-- Witness for `c3_below_threshold_no_mutation`: a confidence-0.6
proposal against the default threshold 0.9 on a concrete artifact. -/
theorem c3_below_threshold_no_mutation_witness :
    (mkRat 3 5 < defaultImprovementConfig.auto_apply_threshold)
    ∧ apply_improvement
        ⟨"s", "1.0.0", [.success_rate_low], mkRat 3 5, []⟩ defaultImprovementConfig
        "2026-10-12" "2026-10-12"
        ⟨some ([("allowed-tools", .list ["Read"]), ("version", .str "1.0.0")], "body"),
         some ⟨some "1.0.0", none, none⟩, some "# Changelog\n\n"⟩
      = some (false,
        ⟨some ([("allowed-tools", .list ["Read"]), ("version", .str "1.0.0")], "body"),
         some ⟨some "1.0.0", none, none⟩, some "# Changelog\n\n"⟩) :=
  ⟨by decide,
    c3_below_threshold_no_mutation
      ⟨"s", "1.0.0", [.success_rate_low], mkRat 3 5, []⟩ defaultImprovementConfig
      "2026-10-12" "2026-10-12"
      ⟨some ([("allowed-tools", .list ["Read"]), ("version", .str "1.0.0")], "body"),
       some ⟨some "1.0.0", none, none⟩, some "# Changelog\n\n"⟩
      (by decide)⟩

/-- C4 (counterexample): the claim states that no proposal is generated
for an artifact whose usage count does not exceed
`min_usage_before_improve`.  It is false: with usage count 0 and one
missing-tool suggestion, `generate_improvement` produces a proposal —
only the success-rate trigger is gated by the usage count. -/
theorem c4_usage_gate_counterexample :
    (generate_improvement "skill-a" ⟨none, none, none⟩
        ⟨0, mkRat 1 1, [], 0⟩ ["Bash"] defaultImprovementConfig).isSome = true
    ∧ (⟨0, mkRat 1 1, [], 0⟩ : Analysis).usage_count
        ≤ defaultImprovementConfig.min_usage_before_improve := by
  exact ⟨by decide, by decide⟩

/-- C4 (amended): a proposal is generated exactly when at least one
trigger holds, where only the success-rate trigger requires
`usage_count ≥ min_usage_before_improve`; the missing-tools and
recurring-failure triggers fire regardless of the usage count.  (The
usage gate of the source is `>=`, not strictly-exceeds.) -/
theorem c4_trigger_characterization (skill_name : String) (meta : SkillMeta)
    (analysis : Analysis) (missing_tools : List String) (cfg : ImprovementConfig) :
    (generate_improvement skill_name meta analysis missing_tools cfg).isSome
      ↔ ((cfg.min_usage_before_improve ≤ analysis.usage_count
            ∧ analysis.success_rate < cfg.success_rate_trigger)
         ∨ missing_tools ≠ []
         ∨ (∃ t k, analysis.failure_types.head? = some (t, k) ∧ 3 ≤ k)) := by
  rcases hft : analysis.failure_types.head? with _ | ⟨t, k⟩
  · by_cases h1 : cfg.min_usage_before_improve ≤ analysis.usage_count
        ∧ analysis.success_rate < cfg.success_rate_trigger
      <;> by_cases h2 : missing_tools = []
      <;> simp [generate_improvement, h1, h2, hft]
  · by_cases h3 : 3 ≤ k
    · by_cases h1 : cfg.min_usage_before_improve ≤ analysis.usage_count
          ∧ analysis.success_rate < cfg.success_rate_trigger
        <;> by_cases h2 : missing_tools = []
        <;> simp [generate_improvement, h1, h2, hft, h3]
        <;> exact ⟨t, k, ⟨rfl, rfl⟩, h3⟩
    · by_cases h1 : cfg.min_usage_before_improve ≤ analysis.usage_count
          ∧ analysis.success_rate < cfg.success_rate_trigger
        <;> by_cases h2 : missing_tools = []
        <;> simp [generate_improvement, h1, h2, hft, h3]
        <;> omega

/-- C5 (counterexample): the claim computes the confidence of the
usage-12 / success-rate-0.5 / no-missing-tools scenario as
`0.5 + 0.1 = 0.6`.  It is false: the `+0.1` bonus requires a success
rate strictly below 0.5, so the proposal's confidence is exactly 0.5. -/
theorem c5_confidence_counterexample :
    ((generate_improvement "skill-a" ⟨some "1.0.0", none, none⟩
        ⟨12, mkRat 1 2, [], 20⟩ [] defaultImprovementConfig).map
      (fun p => p.confidence)) = some (mkRat 1 2)
    ∧ mkRat 1 2 ≠ mkRat 3 5 := by
  exact ⟨by decide, by decide⟩

/-- C5 (amended): for an artifact with `usage_count = 12`,
`success_rate = 0.5` (below the 0.7 trigger) and no missing tools, a
proposal is generated with confidence exactly 0.5 (the `+0.1` bonus does
not apply at a rate of exactly 0.5); 0.5 is below the default auto-apply
threshold 0.9, so applying it returns `False` (queued) and leaves any
artifact state unchanged. -/
theorem c5_scenario_confidence_half (st : SkillState) (date now : String) :
    ((generate_improvement "skill-a" ⟨some "1.0.0", none, none⟩
        ⟨12, mkRat 1 2, [], 20⟩ [] defaultImprovementConfig).map
      (fun p => p.confidence)) = some (mkRat 1 2)
    ∧ ((generate_improvement "skill-a" ⟨some "1.0.0", none, none⟩
        ⟨12, mkRat 1 2, [], 20⟩ [] defaultImprovementConfig).map
      (fun p => apply_improvement p defaultImprovementConfig date now st))
      = some (some (false, st)) := by
  have hgen : generate_improvement "skill-a" ⟨some "1.0.0", none, none⟩
      ⟨12, mkRat 1 2, [], 20⟩ [] defaultImprovementConfig
      = some ⟨"skill-a", "1.0.0", [.success_rate_low], mkRat 1 2, []⟩ := by decide
  rw [hgen]
  refine ⟨rfl, ?_⟩
  rw [Option.map_some']
  have hcond : (⟨"skill-a", "1.0.0", [Improvement.success_rate_low], mkRat 1 2, []⟩ :
      Proposal).confidence < defaultImprovementConfig.auto_apply_threshold := by decide
  rw [apply_improvement, if_pos hcond]

/-! ### Claim C8 -/

theorem mostCommon10_snd {tps : List ToolPattern} {p : String × Nat}
    (h : p ∈ mostCommon10 tps) : p.2 = (toolsOf tps).count p.1 := by
  simp only [mostCommon10] at h
  have h' := List.mem_of_mem_take h
  rw [mem_sortDescBy] at h'
  obtain ⟨a, _, hap⟩ := List.mem_map.mp h'
  rw [← hap]

/-- 43 tool events: ten tools `t0 … t9` used 4 times each, then `extra`
used 3 times. -/
def c8Patterns : List ToolPattern :=
  ((List.range 10).flatMap
    (fun i => List.replicate 4 ⟨none, some ("t" ++ toString i), none, none⟩))
    ++ List.replicate 3 ⟨none, some "extra", none, none⟩

/-- The allowed-tools list containing exactly `t0 … t9`. -/
def c8Allowed : List String := (List.range 10).map (fun i => "t" ++ toString i)

set_option maxRecDepth 100000 in
/-- C8 (counterexample): the claim states that every tool used at least 3
times and absent from allowed-tools is returned (all of them whenever
fewer than 5 qualify).  It is false: the scan only inspects
`used_tools.most_common(10)`, so with ten more-used allowed tools the
qualifying tool `extra` (used 3 times, not allowed, the only qualifier)
is never considered and the result is empty. -/
theorem c8_top10_counterexample :
    detect_missing_tools c8Allowed c8Patterns = []
    ∧ 3 ≤ (toolsOf c8Patterns).count "extra"
    ∧ "extra" ∉ c8Allowed
    ∧ ((insertionDedup (toolsOf c8Patterns)).filter
        (fun t => ¬ t ∈ c8Allowed ∧ 3 ≤ (toolsOf c8Patterns).count t)).length = 1 := by
  exact ⟨by decide, by decide, by decide, by decide⟩

/-- C8 (amended): `detect_missing_tools` returns at most 5 tools; every
returned tool is absent from allowed-tools and used at least 3 times; and
it is complete only relative to the 10 most-used tools: a qualifying tool
among `most_common(10)` is returned whenever at most 5 tools of that
top-10 qualify. -/
theorem c8_missing_tools_characterization (allowed : List String)
    (tps : List ToolPattern) :
    (detect_missing_tools allowed tps).length ≤ 5
    ∧ (∀ t ∈ detect_missing_tools allowed tps,
        t ∉ allowed ∧ 3 ≤ (toolsOf tps).count t)
    ∧ (∀ p ∈ mostCommon10 tps, p.1 ∉ allowed → 3 ≤ p.2 →
        ((mostCommon10 tps).filter (fun q => ¬ q.1 ∈ allowed ∧ 3 ≤ q.2)).length ≤ 5 →
        p.1 ∈ detect_missing_tools allowed tps) := by
  refine ⟨?_, ?_, ?_⟩
  · rw [detect_missing_tools, List.length_take]
    exact min_le_left _ _
  · intro t ht
    rw [detect_missing_tools] at ht
    have ht' := List.mem_of_mem_take ht
    obtain ⟨p, hpf, hpt⟩ := List.mem_map.mp ht'
    rcases List.mem_filter.mp hpf with ⟨hptop, hq⟩
    obtain ⟨hna, h3⟩ := of_decide_eq_true hq
    have hsnd := mostCommon10_snd hptop
    rw [← hpt]
    exact ⟨hna, hsnd ▸ h3⟩
  · intro p hp hna h3 hcap
    have hpf : p ∈ (mostCommon10 tps).filter (fun q => ¬ q.1 ∈ allowed ∧ 3 ≤ q.2) :=
      List.mem_filter.mpr ⟨hp, decide_eq_true ⟨hna, h3⟩⟩
    rw [detect_missing_tools,
      List.take_of_length_le (by rw [List.length_map]; exact hcap)]
    exact List.mem_map_of_mem (fun q => q.1) hpf

set_option maxRecDepth 100000 in
/-- Witness for `c8_missing_tools_characterization`: on `c8Patterns` with
the allowed list `t0 … t4`, exactly the five tools `t5 … t9` qualify
among the top 10, and `t5` is returned. -/
theorem c8_missing_tools_characterization_witness :
    ("t5", 4) ∈ mostCommon10 c8Patterns
    ∧ "t5" ∈ detect_missing_tools ["t0", "t1", "t2", "t3", "t4"] c8Patterns :=
  ⟨by decide,
    (c8_missing_tools_characterization ["t0", "t1", "t2", "t3", "t4"] c8Patterns).2.2
      ("t5", 4) (by decide) (by decide) (by decide) (by decide)⟩

/-! ### Claim C9 -/

/-- C9: `analyze_effectiveness` cannot distinguish artifacts — for any two
skill names and any two metadata records carrying the same effectiveness
block, the computed success rate, failure histogram and feedback total
coincide, because the feedback comes from one global log that is never
filtered by the skill under analysis. -/
theorem c9_effectiveness_ignores_artifact (n1 n2 : String) (m1 m2 : SkillMeta)
    (fb : List Feedback) (h : m1.effectiveness = m2.effectiveness) :
    (analyze_effectiveness n1 m1 fb).success_rate
        = (analyze_effectiveness n2 m2 fb).success_rate
    ∧ (analyze_effectiveness n1 m1 fb).failure_types
        = (analyze_effectiveness n2 m2 fb).failure_types
    ∧ (analyze_effectiveness n1 m1 fb).total_feedback
        = (analyze_effectiveness n2 m2 fb).total_feedback := by
  simp [analyze_effectiveness, h]

/-- Witness for `c9_effectiveness_ignores_artifact`: two distinct skill
names and distinct metadata with equal effectiveness blocks over a
concrete feedback log. -/
theorem c9_effectiveness_ignores_artifact_witness :
    (⟨some "1.0.0", some ⟨some 3, some (mkRat 1 2), none⟩, none⟩ : SkillMeta).effectiveness
      = (⟨some "2.0.0", some ⟨some 3, some (mkRat 1 2), none⟩, some "t"⟩ :
          SkillMeta).effectiveness
    ∧ (analyze_effectiveness "skill-a"
          ⟨some "1.0.0", some ⟨some 3, some (mkRat 1 2), none⟩, none⟩
          [⟨some "success", none⟩, ⟨some "failure", some "timeout"⟩]).success_rate
        = (analyze_effectiveness "skill-b"
          ⟨some "2.0.0", some ⟨some 3, some (mkRat 1 2), none⟩, some "t"⟩
          [⟨some "success", none⟩, ⟨some "failure", some "timeout"⟩]).success_rate :=
  ⟨rfl,
    (c9_effectiveness_ignores_artifact "skill-a" "skill-b"
      ⟨some "1.0.0", some ⟨some 3, some (mkRat 1 2), none⟩, none⟩
      ⟨some "2.0.0", some ⟨some 3, some (mkRat 1 2), none⟩, some "t"⟩
      [⟨some "success", none⟩, ⟨some "failure", some "timeout"⟩] rfl).1⟩

/-! ### Lemmas for `apply_improvement` -/

theorem find?_append_left_none {α : Type} (p : α → Bool) (l₁ l₂ : List α)
    (h : l₁.find? p = none) : (l₁ ++ l₂).find? p = l₂.find? p := by
  induction l₁ with
  | nil => rfl
  | cons a l ih =>
    by_cases hpa : p a
    · rw [List.find?_cons_of_pos _ hpa] at h
      exact absurd h (by simp)
    · rw [List.find?_cons_of_neg _ hpa] at h
      rw [List.cons_append, List.find?_cons_of_neg _ hpa]
      exact ih h

theorem find?_replace_self (ys : Yaml) (k : String) (v : YamlVal)
    (hany : ys.any (fun q => q.1 = k) = true) :
    (ys.map (fun q => if q.1 = k then (k, v) else q)).find? (fun q => q.1 = k)
      = some (k, v) := by
  induction ys with
  | nil => simp at hany
  | cons p ys ih =>
    rw [List.map_cons]
    by_cases hp : p.1 = k
    · rw [if_pos hp]
      rw [List.find?_cons_of_pos _ (by simp)]
    · rw [if_neg hp, List.find?_cons_of_neg _ (by simpa using hp)]
      refine ih ?_
      rcases List.any_eq_true.mp hany with ⟨q, hq, hqk⟩
      rcases List.mem_cons.mp hq with rfl | hq'
      · exact absurd (of_decide_eq_true hqk) hp
      · exact List.any_eq_true.mpr ⟨q, hq', hqk⟩

theorem find?_replace_ne (ys : Yaml) (k k' : String) (v : YamlVal) (h : k' ≠ k) :
    (ys.map (fun q => if q.1 = k then (k, v) else q)).find? (fun q => q.1 = k')
      = ys.find? (fun q => q.1 = k') := by
  induction ys with
  | nil => rfl
  | cons p ys ih =>
    rw [List.map_cons]
    by_cases hp : p.1 = k
    · rw [if_pos hp, List.find?_cons_of_neg _ (by simp [Ne.symm h]),
        List.find?_cons_of_neg _ (by simp [hp, Ne.symm h])]
      exact ih
    · rw [if_neg hp]
      by_cases hpk' : p.1 = k'
      · rw [List.find?_cons_of_pos _ (by simpa using hpk'),
          List.find?_cons_of_pos _ (by simpa using hpk')]
      · rw [List.find?_cons_of_neg _ (by simpa using hpk'),
          List.find?_cons_of_neg _ (by simpa using hpk')]
        exact ih

theorem yamlGet_yamlSet_self (y : Yaml) (k : String) (v : YamlVal) :
    yamlGet (yamlSet y k v) k = some v := by
  rw [yamlSet]
  by_cases hany : y.any (fun q => q.1 = k)
  · rw [if_pos hany, yamlGet, find?_replace_self y k v hany]
    rfl
  · rw [if_neg hany, yamlGet]
    have hnone : y.find? (fun q => q.1 = k) = none := by
      rw [List.find?_eq_none]
      intro x hx hxk
      exact hany (List.any_eq_true.mpr ⟨x, hx, hxk⟩)
    rw [find?_append_left_none _ _ _ hnone]
    simp [List.find?]

theorem yamlGet_yamlSet_ne (y : Yaml) (k k' : String) (v : YamlVal) (h : k' ≠ k) :
    yamlGet (yamlSet y k v) k' = yamlGet y k' := by
  rw [yamlSet]
  by_cases hany : y.any (fun q => q.1 = k)
  · rw [if_pos hany, yamlGet, yamlGet, find?_replace_ne y k k' v h]
  · rw [if_neg hany, yamlGet, yamlGet]
    induction y with
    | nil => simp [List.find?, Ne.symm h]
    | cons p ys ih =>
      by_cases hpk' : p.1 = k'
      · rw [List.cons_append, List.find?_cons_of_pos _ (by simpa using hpk'),
          List.find?_cons_of_pos _ (by simpa using hpk')]
      · rw [List.cons_append, List.find?_cons_of_neg _ (by simpa using hpk'),
          List.find?_cons_of_neg _ (by simpa using hpk')]
        refine ih ?_
        intro hys
        exact hany (by
          rcases List.any_eq_true.mp hys with ⟨q, hq, hqk⟩
          exact List.any_eq_true.mpr ⟨q, List.mem_cons_of_mem p hq, hqk⟩)

theorem versionString_yamlSet_tools (y : Yaml) (w : YamlVal) :
    versionString (yamlSet y "allowed-tools" w) = versionString y := by
  simp only [versionString, yamlGet_yamlSet_ne y "allowed-tools" "version" w (by decide)]

theorem toList_append (s t : String) : (s ++ t).toList = s.toList ++ t.toList := by
  simp [String.toList]

theorem infix_append_outer {α : Type} {pat m : List α} (h : pat <:+: m) (l r : List α) :
    pat <:+: l ++ m ++ r := by
  obtain ⟨s, t, hst⟩ := h
  exact ⟨l ++ s, t ++ r, by rw [← hst]; simp [List.append_assoc]⟩

/-- The header `## [version]` occurs contiguously in any changelog
produced by `update_changelog` for that version. -/
theorem header_infix_update_changelog (prev : Option String) (version date : String)
    (changes : List String) :
    ("## [" ++ version ++ "]").toList <:+: (update_changelog prev version date changes).toList := by
  have e1 : "\n## [".toList = '\n' :: "## [".toList := rfl
  have e2 : "] - ".toList = "]".toList ++ " - ".toList := rfl
  have hpat : (changelogEntry version date changes).toList
      = ['\n'] ++ ("## [" ++ version ++ "]").toList
        ++ (" - ".toList ++ date.toList
            ++ "\n\n### Changed (Auto-improved)\n\n".toList
            ++ (String.join (changes.map (fun c => "- " ++ c ++ "\n"))).toList) := by
    rw [changelogEntry]
    simp only [toList_append, e1, e2, List.append_assoc, List.cons_append,
      List.singleton_append, List.nil_append]
  have hpe : ("## [" ++ version ++ "]").toList <:+: (changelogEntry version date changes).toList :=
    ⟨['\n'],
      " - ".toList ++ date.toList ++ "\n\n### Changed (Auto-improved)\n\n".toList
        ++ (String.join (changes.map (fun c => "- " ++ c ++ "\n"))).toList,
      hpat.symm⟩
  simp only [update_changelog]
  cases hf : findSub "## [".toList ((prev.getD "# Changelog\n\n").toList) with
  | none =>
    rw [toList_append]
    have := infix_append_outer hpe ((prev.getD "# Changelog\n\n").toList) []
    simpa using this
  | some i =>
    show ("## [" ++ version ++ "]").toList <:+: (String.mk _).toList
    rw [show ∀ l : List Char, (String.mk l).toList = l from fun _ => rfl]
    exact infix_append_outer hpe ((prev.getD "# Changelog\n\n").toList.take i)
      ('\n' :: (prev.getD "# Changelog\n\n").toList.drop i)

/-! ### Claim C10 -/

/-- C10: whenever `apply_improvement` actually applies a proposal
(confidence at or above the threshold — the forced path raises the
confidence to 1.0 beforehand — with SKILL.md and metadata present and a
well-formed three-part numeric version), it bumps the minor version
component, resets the patch component to `0`, mirrors the new version
into the metadata and inserts a changelog entry headed `## [new
version]`; this holds for every proposal, in particular one with no
missing tools (see the witness). -/
theorem c10_apply_bumps_minor_and_logs (proposal : Proposal) (cfg : ImprovementConfig)
    (date now : String) (yaml : Yaml) (body : String) (meta : SkillMeta)
    (clog : Option String) (v a b c : String) (m : Int)
    (hconf : cfg.auto_apply_threshold ≤ proposal.confidence)
    (hv : versionString yaml = some v)
    (hsplit : pySplit v '.' = [a, b, c])
    (hint : pyInt b = some m) :
    ∃ (yaml2 : Yaml) (meta2 : SkillMeta) (clog2 : String),
      apply_improvement proposal cfg date now ⟨some (yaml, body), some meta, clog⟩
        = some (true, ⟨some (yaml2, body), some meta2, some clog2⟩)
      ∧ yamlGet yaml2 "version" = some (.str (a ++ "." ++ toString (m + 1) ++ ".0"))
      ∧ meta2.version = some (a ++ "." ++ toString (m + 1) ++ ".0")
      ∧ ("## [" ++ (a ++ "." ++ toString (m + 1) ++ ".0") ++ "]").toList
          <:+: clog2.toList := by
  have hnotlt : ¬ proposal.confidence < cfg.auto_apply_threshold := not_lt.mpr hconf
  have hv1 : versionString (if proposal.missing_tools = [] then yaml
      else yamlSet yaml "allowed-tools" (.list (proposal.missing_tools.foldl
        (fun (p : List String × List String) tool =>
          if tool ∈ p.1 then p
          else (p.1 ++ [tool], p.2 ++ ["Added " ++ tool ++ " to allowed-tools"]))
        (yamlTools yaml, [])).1)) = some v := by
    by_cases hmt : proposal.missing_tools = []
    · rw [if_pos hmt]; exact hv
    · rw [if_neg hmt, versionString_yamlSet_tools]; exact hv
  rw [apply_improvement, if_neg hnotlt]
  simp only [hv1, hsplit, hint, Option.map_some']
  exact ⟨_, _, _, rfl, yamlGet_yamlSet_self _ "version" _, rfl,
    header_infix_update_changelog clog _ date _⟩

/-- Witness for `c10_apply_bumps_minor_and_logs`: a forced-style
confidence-1.0 proposal with no missing tools against a version-`1.4.2`
artifact; the version becomes `1.5.0`. -/
theorem c10_apply_bumps_minor_and_logs_witness :
    defaultImprovementConfig.auto_apply_threshold ≤ (mkRat 1 1 : ℚ)
    ∧ versionString [("name", .str "s"), ("version", .str "1.4.2")] = some "1.4.2"
    ∧ pySplit "1.4.2" '.' = ["1", "4", "2"]
    ∧ pyInt "4" = some (4 : Int)
    ∧ ∃ (yaml2 : Yaml) (meta2 : SkillMeta) (clog2 : String),
        apply_improvement ⟨"s", "1.4.2", [.success_rate_low], mkRat 1 1, []⟩
          defaultImprovementConfig "2026-10-12" "2026-10-12"
          ⟨some ([("name", .str "s"), ("version", .str "1.4.2")], "body"),
           some ⟨some "1.4.2", none, none⟩, some "# Changelog\n\n"⟩
          = some (true, ⟨some (yaml2, "body"), some meta2, some clog2⟩)
        ∧ yamlGet yaml2 "version"
            = some (.str ("1" ++ "." ++ toString ((4 : Int) + 1) ++ ".0"))
        ∧ meta2.version = some ("1" ++ "." ++ toString ((4 : Int) + 1) ++ ".0")
        ∧ ("## [" ++ ("1" ++ "." ++ toString ((4 : Int) + 1) ++ ".0") ++ "]").toList
            <:+: clog2.toList :=
  ⟨by decide, by decide, by decide, by decide,
    c10_apply_bumps_minor_and_logs ⟨"s", "1.4.2", [.success_rate_low], mkRat 1 1, []⟩
      defaultImprovementConfig "2026-10-12" "2026-10-12"
      [("name", .str "s"), ("version", .str "1.4.2")] "body"
      ⟨some "1.4.2", none, none⟩ (some "# Changelog\n\n") "1.4.2" "1" "4" "2" 4
      (by decide) (by decide) (by decide) (by decide)⟩
